import Mathlib

/-!
Verification development for the Bienstock–Zuckerberg column-generation core:
the closure pricer (`models/pricer.py`), the restricted master problem
(`models/master_problem.py`) and the controller (`models/bz_controller.py`).

Machine reals are modelled by `ℚ` (the properties under scrutiny are exact
algebraic identities and set/bookkeeping invariants).  Python dicts with
`.get(k, 0.0)` access are modelled as total functions defaulting to 0, and
dict key sets as lists.  The external LP back-end (PuLP) and the NetworkX
max-flow routines are modelled relationally: a minimum cut is any partition
satisfying the min-cut contract, and the partition `nx.minimum_cut`
actually returns — the complement of the set of nodes that can still reach
`t` in the residual network of a maximum flow — is the inclusion-maximal
source side among all minimum cuts.
-/

/-- Precedence DAG as stored by the pricer: an edge `(u, v)` means `u` is a
predecessor of `v` (`self.G` in `ClosurePricer`, a `nx.DiGraph`). -/
structure DiGraph where
  nodes : List ℕ
  edges : List (ℕ × ℕ)
deriving DecidableEq

/-- Nodes of the s-t cut graph built by `_build_cut_graph`: the two string
terminals `__source__` / `__sink__` plus the original integer block nodes. -/
inductive CNode where
  | src : CNode
  | sink : CNode
  | blk : ℕ → CNode
deriving DecidableEq

/-- Node weights used by `price`: `profit - dual`, both defaulting to 0 for
missing dict keys (`profits.get(n, 0.0)`, `duals.get(n, 0.0)`). -/
def weightsOf (profits duals : ℕ → ℚ) : ℕ → ℚ :=
  fun n => profits n - duals n

/-- `sum(max(0.0, w) for w in weights.values())`, the sum of the positive
parts of the node weights over the DAG's nodes. -/
def sumPos (G : DiGraph) (w : ℕ → ℚ) : ℚ :=
  (G.nodes.map (fun n => max 0 (w n))).sum

/-- The finite stand-in for infinite capacity on precedence edges:
`sum(max(0.0, w) for w in weights.values()) + 1.0` in `_build_cut_graph`. -/
def finiteCap (G : DiGraph) (w : ℕ → ℚ) : ℚ :=
  sumPos G w + 1

/-- The edge list (with capacities) of the cut graph built by
`_build_cut_graph`: for each node `n`, edge `s→n` with capacity `w n` when
`0 ≤ w n`, else edge `n→t` with capacity `-w n`; and for each precedence
edge `(u, v)` the reverse edge `v→u` with the finite "infinite" capacity. -/
def cutEdges (G : DiGraph) (w : ℕ → ℚ) : List (CNode × CNode × ℚ) :=
  G.nodes.map (fun n =>
    if 0 ≤ w n then (CNode.src, CNode.blk n, w n)
    else (CNode.blk n, CNode.sink, -(w n)))
  ++ G.edges.map (fun e => (CNode.blk e.2, CNode.blk e.1, finiteCap G w))

/-- Capacity of the cut induced by a side assignment `f` (`f n = true` means
`n` is on the source side): total capacity of edges from the source side to
the sink side. -/
def cutCap (E : List (CNode × CNode × ℚ)) (f : CNode → Bool) : ℚ :=
  ((E.filter (fun e => f e.1 && !(f e.2.1))).map (fun e => e.2.2)).sum

/-- The min-cut contract of the flow library: a partition separating the
terminals whose crossing capacity is minimum among all such partitions. -/
def IsMinCut (E : List (CNode × CNode × ℚ)) (f : CNode → Bool) : Prop :=
  f CNode.src = true ∧ f CNode.sink = false ∧
    ∀ g : CNode → Bool, g CNode.src = true → g CNode.sink = false →
      cutCap E f ≤ cutCap E g

/-- The partition actually returned by `nx.minimum_cut`: after computing a
maximum flow it removes the saturated edges of the residual network, takes
`non_reachable = set(dict(nx.shortest_path_length(R, target=t)))` — the
nodes that can still REACH `t` — and returns
`(set(R) - non_reachable, non_reachable)`.  For any maximum flow, a node
that reaches `t` through unsaturated edges lies on the sink side of every
minimum cut, and the complement of that co-reachable set is itself a
minimum-cut source side; so the returned source side is the unique
inclusion-MAXIMAL source side among all minimum cuts, which is how this
predicate characterises it. -/
def IsMaximalMinCut (E : List (CNode × CNode × ℚ)) (f : CNode → Bool) : Prop :=
  IsMinCut E f ∧
    ∀ g : CNode → Bool, IsMinCut E g → ∀ n, g n = true → f n = true

/-- A possible minimum-cut value (equivalently, by max-flow/min-cut, the
`flow_value` computed by the flow library). -/
def IsMinCutValue (E : List (CNode × CNode × ℚ)) (c : ℚ) : Prop :=
  ∃ f, IsMinCut E f ∧ c = cutCap E f

/-- Reachability from `__source__` along edges whose stored `capacity`
attribute is positive.  This is exactly the traversal the `edmonds_karp`
branch of `price` performs: it walks the residual network testing
`data.get('capacity', 0.0) > 0`, and in a NetworkX residual network the
`capacity` attribute holds the ORIGINAL capacity (the residual capacity is
`capacity - flow`), so the traversal follows the original positive-capacity
edges of the cut graph. -/
inductive Reach (E : List (CNode × CNode × ℚ)) : CNode → Prop where
  | base : Reach E CNode.src
  | step {a b : CNode} {c : ℚ} : Reach E a → (a, b, c) ∈ E → 0 < c → Reach E b

/-- Result record of `ClosurePricer.price` (`PricingResult`). -/
structure PricingResult where
  reduced_cost : ℚ
  selected_blocks : List ℕ
  total_weight : ℚ
deriving DecidableEq

/-- The two pricing algorithms selectable in `ClosurePricer`. -/
inductive Algo where
  | min_cut : Algo
  | edmonds_karp : Algo
deriving DecidableEq

/-- Relational model of `ClosurePricer.price`.  In both branches the code
computes `total_weight = sum_pos - cut_value` and
`reduced_cost = convexity_dual - total_weight`; `selected_blocks` is
materialised from a Python set (so it is duplicate-free and its order is
unspecified).  In the `min_cut` branch the selected set is the source side
of the partition `nx.minimum_cut` returns — the inclusion-maximal
minimum-cut source side — minus the terminals, intersected with the DAG
nodes; in the `edmonds_karp` branch it is the set reached by the
positive-`capacity` traversal, and `cut_value` is the max-flow value. -/
def PriceSpec (G : DiGraph) (profits duals : ℕ → ℚ) (z : ℚ) (algo : Algo)
    (res : PricingResult) : Prop :=
  let w := weightsOf profits duals
  let E := cutEdges G w
  (match algo with
   | Algo.min_cut =>
      ∃ f, IsMaximalMinCut E f ∧
        (∀ b, b ∈ res.selected_blocks ↔ b ∈ G.nodes ∧ f (CNode.blk b) = true) ∧
        res.total_weight = sumPos G w - cutCap E f
   | Algo.edmonds_karp =>
      ∃ c, IsMinCutValue E c ∧
        (∀ b, b ∈ res.selected_blocks ↔ b ∈ G.nodes ∧ Reach E (CNode.blk b)) ∧
        res.total_weight = sumPos G w - c)
  ∧ res.selected_blocks.Nodup
  ∧ res.reduced_cost = z - res.total_weight

/-! ### Basic facts about the cut graph -/

theorem sumPos_nonneg (G : DiGraph) (w : ℕ → ℚ) : 0 ≤ sumPos G w := by
  apply List.sum_nonneg
  intro x hx
  rcases List.mem_map.mp hx with ⟨n, _, rfl⟩
  exact le_max_left 0 (w n)

theorem cutEdges_cap_nonneg (G : DiGraph) (w : ℕ → ℚ) :
    ∀ e ∈ cutEdges G w, 0 ≤ e.2.2 := by
  intro e he
  rcases List.mem_append.mp he with h | h
  · rcases List.mem_map.mp h with ⟨n, _, rfl⟩
    by_cases hw : 0 ≤ w n
    · simp [hw]
    · simp only [hw, if_false]
      simp only [not_le] at hw
      simpa using le_of_lt (neg_pos.mpr hw)
  · rcases List.mem_map.mp h with ⟨e', _, rfl⟩
    have h1 : (0 : ℚ) ≤ sumPos G w := sumPos_nonneg G w
    simp only [finiteCap]
    linarith

theorem cutCap_nonneg (E : List (CNode × CNode × ℚ))
    (hE : ∀ e ∈ E, 0 ≤ e.2.2) (f : CNode → Bool) : 0 ≤ cutCap E f := by
  apply List.sum_nonneg
  intro x hx
  rcases List.mem_map.mp hx with ⟨e, he, rfl⟩
  exact hE e (List.mem_filter.mp he).1

theorem cutCap_ge_of_crossing (E : List (CNode × CNode × ℚ))
    (hE : ∀ e ∈ E, 0 ≤ e.2.2) (f : CNode → Bool) (e : CNode × CNode × ℚ)
    (he : e ∈ E) (h1 : f e.1 = true) (h2 : f e.2.1 = false) :
    e.2.2 ≤ cutCap E f := by
  apply List.single_le_sum
  · intro x hx
    rcases List.mem_map.mp hx with ⟨e', he', rfl⟩
    exact hE e' (List.mem_filter.mp he').1
  · exact List.mem_map.mpr ⟨e, List.mem_filter.mpr ⟨he, by simp [h1, h2]⟩, rfl⟩

/-- The singleton source side `{s}`: its cut capacity is exactly `sumPos`,
witnessing that the minimum-cut value is at most `sumPos`. -/
def srcOnly : CNode → Bool
  | CNode.src => true
  | _ => false

theorem srcOnly_src : srcOnly CNode.src = true := rfl

theorem srcOnly_sink : srcOnly CNode.sink = false := rfl

theorem cutCap_srcOnly (G : DiGraph) (w : ℕ → ℚ) :
    cutCap (cutEdges G w) srcOnly = sumPos G w := by
  unfold cutCap cutEdges sumPos
  rw [List.filter_append, List.map_append, List.sum_append]
  have h2 : (G.edges.map fun e => (CNode.blk e.2, CNode.blk e.1, finiteCap G w)).filter
      (fun e => srcOnly e.1 && !(srcOnly e.2.1)) = [] := by
    apply List.filter_eq_nil_iff.mpr
    intro e he
    rcases List.mem_map.mp he with ⟨e', _, rfl⟩
    simp [srcOnly]
  rw [h2]
  simp only [List.map_nil, List.sum_nil, add_zero]
  induction G.nodes with
  | nil => simp
  | cons n ns ih =>
    simp only [List.map_cons]
    by_cases hw : 0 ≤ w n
    · rw [if_pos hw, List.filter_cons_of_pos rfl, List.map_cons, List.sum_cons, ih,
        List.sum_cons, max_eq_right hw]
    · rw [if_neg hw, List.filter_cons_of_neg (by simp [srcOnly]), ih, List.sum_cons,
        max_eq_left (le_of_lt (not_le.mp hw)), zero_add]

theorem minCut_le_sumPos (G : DiGraph) (w : ℕ → ℚ) (f : CNode → Bool)
    (hf : IsMinCut (cutEdges G w) f) : cutCap (cutEdges G w) f ≤ sumPos G w := by
  have h := hf.2.2 srcOnly srcOnly_src srcOnly_sink
  rwa [cutCap_srcOnly] at h

/-- A precedence edge `(u, v)` of the DAG appears in the cut graph as the
reverse edge `blk v → blk u` carrying the finite "infinite" capacity. -/
theorem prec_edge_mem_cutEdges (G : DiGraph) (w : ℕ → ℚ) {u v : ℕ}
    (h : (u, v) ∈ G.edges) :
    (CNode.blk v, CNode.blk u, finiteCap G w) ∈ cutEdges G w := by
  apply List.mem_append_right
  exact List.mem_map.mpr ⟨(u, v), h, rfl⟩

/-- No minimum cut of the pricer's graph crosses a precedence edge: its
capacity `sumPos + 1` exceeds the value `sumPos` of the trivial cut `{s}`. -/
theorem minCut_no_prec_crossing (G : DiGraph) (w : ℕ → ℚ) (f : CNode → Bool)
    (hf : IsMinCut (cutEdges G w) f) {u v : ℕ} (huv : (u, v) ∈ G.edges)
    (hv : f (CNode.blk v) = true) : f (CNode.blk u) = true := by
  by_contra hu
  have hu' : f (CNode.blk u) = false := by
    cases h : f (CNode.blk u) with
    | true => exact absurd h hu
    | false => rfl
  have hcross := cutCap_ge_of_crossing (cutEdges G w) (cutEdges_cap_nonneg G w) f
    (CNode.blk v, CNode.blk u, finiteCap G w) (prec_edge_mem_cutEdges G w huv) hv hu'
  have hle := minCut_le_sumPos G w f hf
  simp only [finiteCap] at hcross
  linarith

/-- Claim C1: for every call to `ClosurePricer.price`, with either algorithm,
the returned `selected_blocks` set is closed under predecessors: if block `b`
is selected and `(u, v)` is a precedence edge of the DAG with `v = b`, then
`u` is selected as well.  (Hypothesis `hGE` is the NetworkX graph invariant
that edge endpoints are nodes of the graph.) -/
theorem price_selected_closed_under_predecessors
    (G : DiGraph) (profits duals : ℕ → ℚ) (z : ℚ) (algo : Algo)
    (res : PricingResult)
    (hGE : ∀ e ∈ G.edges, e.1 ∈ G.nodes ∧ e.2 ∈ G.nodes)
    (hres : PriceSpec G profits duals z algo res) :
    ∀ b ∈ res.selected_blocks, ∀ e ∈ G.edges, e.2 = b →
      e.1 ∈ res.selected_blocks := by
  intro b hb e he hev
  obtain ⟨hmain, _, _⟩ := hres
  cases algo with
  | min_cut =>
    obtain ⟨f, ⟨hmc, _⟩, hmem, _⟩ := hmain
    obtain ⟨_, hfb⟩ := (hmem b).mp hb
    apply (hmem e.1).mpr
    refine ⟨(hGE e he).1, ?_⟩
    have hedge : (e.1, e.2) ∈ G.edges := by
      cases e; exact he
    exact minCut_no_prec_crossing G (weightsOf profits duals) f hmc hedge (hev ▸ hfb)
  | edmonds_karp =>
    obtain ⟨c, _, hmem, _⟩ := hmain
    obtain ⟨_, hrb⟩ := (hmem b).mp hb
    apply (hmem e.1).mpr
    refine ⟨(hGE e he).1, ?_⟩
    have hedge : (e.1, e.2) ∈ G.edges := by
      cases e; exact he
    have hmem2 : (CNode.blk e.2, CNode.blk e.1, finiteCap G (weightsOf profits duals)) ∈
        cutEdges G (weightsOf profits duals) :=
      prec_edge_mem_cutEdges G (weightsOf profits duals) hedge
    have hpos : (0 : ℚ) < finiteCap G (weightsOf profits duals) := by
      have := sumPos_nonneg G (weightsOf profits duals)
      simp only [finiteCap]
      linarith
    exact Reach.step (hev ▸ hrb) hmem2 hpos

/-- When every node weight is nonpositive there are no positive parts:
`sum(max(0.0, w))` is 0. -/
theorem sumPos_eq_zero_of_nonpos (G : DiGraph) (w : ℕ → ℚ)
    (hw : ∀ n ∈ G.nodes, w n ≤ 0) : sumPos G w = 0 := by
  apply List.sum_eq_zero
  intro x hx
  rcases List.mem_map.mp hx with ⟨n, hn, rfl⟩
  exact max_eq_left (hw n hn)

/-- With all weights nonpositive the minimum-cut value is 0: the `{s}`-side
cut already costs `sumPos = 0`, and no cut costs less. -/
theorem minCut_cutCap_zero_of_nonpos (G : DiGraph) (w : ℕ → ℚ)
    (hw : ∀ n ∈ G.nodes, w n ≤ 0) (f : CNode → Bool)
    (hf : IsMinCut (cutEdges G w) f) : cutCap (cutEdges G w) f = 0 := by
  have h1 := hf.2.2 srcOnly srcOnly_src srcOnly_sink
  rw [cutCap_srcOnly, sumPos_eq_zero_of_nonpos G w hw] at h1
  have h2 := cutCap_nonneg (cutEdges G w) (cutEdges_cap_nonneg G w) f
  linarith

/-- A node with strictly negative weight contributes the edge `n→t` of
capacity `-w n` to the cut graph. -/
theorem neg_node_mem_cutEdges (G : DiGraph) (w : ℕ → ℚ) {b : ℕ}
    (hb : b ∈ G.nodes) (hwb : ¬ 0 ≤ w b) :
    (CNode.blk b, CNode.sink, -(w b)) ∈ cutEdges G w := by
  apply List.mem_append_left
  exact List.mem_map.mpr ⟨b, hb, by rw [if_neg hwb]⟩

/-- With all weights nonpositive, every edge out of `s` has capacity
`w n = 0`, so the positive-capacity traversal never leaves `s`. -/
theorem reach_eq_src_of_nonpos (G : DiGraph) (w : ℕ → ℚ)
    (hw : ∀ n ∈ G.nodes, w n ≤ 0) :
    ∀ x, Reach (cutEdges G w) x → x = CNode.src := by
  intro x hx
  induction hx with
  | base => rfl
  | step hra hmem hc ih =>
    subst ih
    rcases List.mem_append.mp hmem with h | h
    · rcases List.mem_map.mp h with ⟨n, hn, heq⟩
      by_cases hwn : 0 ≤ w n
      · simp only [hwn, if_true, Prod.mk.injEq] at heq
        have : w n = 0 := le_antisymm (hw n hn) hwn
        rw [← heq.2.2, this] at hc
        exact absurd hc (lt_irrefl 0)
      · simp only [hwn, if_false, Prod.mk.injEq] at heq
        exact absurd heq.1 (by intro h; cases h)
    · rcases List.mem_map.mp h with ⟨e', _, heq⟩
      simp only [Prod.mk.injEq] at heq
      exact absurd heq.1 (by intro h; cases h)

/-- Amended claim C6: if every node weight `profit - dual` is nonpositive
then `total_weight = 0` and `reduced_cost = z` with either algorithm, and
the `edmonds_karp` branch returns the empty selection; the `min_cut` branch
is only guaranteed an empty selection when every weight is STRICTLY
negative — a zero-weight block cannot reach `t` in the residual network, so
`nx.minimum_cut` places it on the source side and the block is selected
(see the counterexample). -/
theorem price_all_nonpos_weights_amended (G : DiGraph)
    (profits duals : ℕ → ℚ) (z : ℚ) (algo : Algo) (res : PricingResult)
    (hw : ∀ n ∈ G.nodes, weightsOf profits duals n ≤ 0)
    (hres : PriceSpec G profits duals z algo res) :
    res.total_weight = 0 ∧ res.reduced_cost = z ∧
    (algo = Algo.edmonds_karp → res.selected_blocks = []) ∧
    ((∀ n ∈ G.nodes, weightsOf profits duals n < 0) →
      res.selected_blocks = []) := by
  obtain ⟨hmain, _, hrc⟩ := hres
  set w := weightsOf profits duals with hwdef
  have hsp : sumPos G w = 0 := sumPos_eq_zero_of_nonpos G w hw
  cases algo with
  | min_cut =>
    obtain ⟨f, ⟨hmc, hmax⟩, hmem, htw⟩ := hmain
    have htw0 : res.total_weight = 0 := by
      rw [htw, hsp, minCut_cutCap_zero_of_nonpos G w hw f hmc, sub_zero]
    refine ⟨htw0, by rw [hrc, htw0, sub_zero], fun h => Algo.noConfusion h, ?_⟩
    intro hstrict
    apply List.eq_nil_iff_forall_not_mem.mpr
    intro b hb
    obtain ⟨hbn, hfb⟩ := (hmem b).mp hb
    have hwb : w b < 0 := hstrict b hbn
    have hedge := neg_node_mem_cutEdges G w hbn (not_le.mpr hwb)
    have hcross := cutCap_ge_of_crossing (cutEdges G w) (cutEdges_cap_nonneg G w)
      f (CNode.blk b, CNode.sink, -(w b)) hedge hfb hmc.2.1
    rw [minCut_cutCap_zero_of_nonpos G w hw f hmc] at hcross
    simp only at hcross
    linarith
  | edmonds_karp =>
    obtain ⟨c, ⟨f, hf, hc⟩, hmem, htw⟩ := hmain
    have htw0 : res.total_weight = 0 := by
      rw [htw, hsp, hc, minCut_cutCap_zero_of_nonpos G w hw f hf, sub_zero]
    have hsel : res.selected_blocks = [] := by
      apply List.eq_nil_iff_forall_not_mem.mpr
      intro b hb
      obtain ⟨_, hrb⟩ := (hmem b).mp hb
      have := reach_eq_src_of_nonpos G w hw (CNode.blk b) hrb
      cases this
    exact ⟨htw0, by rw [hrc, htw0, sub_zero], fun _ => hsel, fun _ => hsel⟩


/-! ### Concrete pricing instances used as witnesses -/

/-- Two-block chain DAG `0 → 1`. -/
def exG1 : DiGraph := ⟨[0, 1], [(0, 1)]⟩

/-- Profits `{0: 1, 1: 2}`. -/
def exP1 : ℕ → ℚ := fun n => if n = 0 then 1 else if n = 1 then 2 else 0

/-- Zero duals. -/
def exD1 : ℕ → ℚ := fun _ => 0

/-- Pricing outcome on `exG1` with zero duals: both blocks selected,
closure weight 3, reduced cost `0 - 3`. -/
def exRes1 : PricingResult := ⟨-3, [0, 1], 3⟩

/-- Side assignment putting every node except the sink on the source side. -/
def allButSink : CNode → Bool
  | CNode.sink => false
  | _ => true

theorem exE1_eval : cutEdges exG1 (weightsOf exP1 exD1) =
    [(CNode.src, CNode.blk 0, 1), (CNode.src, CNode.blk 1, 2),
     (CNode.blk 1, CNode.blk 0, 4)] := by
  norm_num [cutEdges, exG1, weightsOf, exP1, exD1, finiteCap, sumPos]

theorem exE1_sumPos : sumPos exG1 (weightsOf exP1 exD1) = 3 := by
  norm_num [sumPos, exG1, weightsOf, exP1, exD1]

theorem exE1_cutCap_allButSink :
    cutCap (cutEdges exG1 (weightsOf exP1 exD1)) allButSink = 0 := by
  rw [exE1_eval]
  simp [cutCap, allButSink]

theorem exRes1_spec : PriceSpec exG1 exP1 exD1 0 Algo.edmonds_karp exRes1 := by
  refine ⟨⟨0, ⟨allButSink, ⟨rfl, rfl, ?_⟩, by rw [exE1_cutCap_allButSink]⟩, ?_,
    by rw [exE1_sumPos]; norm_num [exRes1]⟩, by decide, by norm_num [exRes1]⟩
  · intro g _ _
    rw [exE1_cutCap_allButSink]
    exact cutCap_nonneg _ (cutEdges_cap_nonneg exG1 _) g
  · intro b
    constructor
    · intro hb
      have hb' : b = 0 ∨ b = 1 := by simpa [exRes1] using hb
      rcases hb' with rfl | rfl
      · refine ⟨by simp [exG1], Reach.step (c := 1) Reach.base ?_ (by norm_num)⟩
        rw [exE1_eval]; simp
      · refine ⟨by simp [exG1], Reach.step (c := 2) Reach.base ?_ (by norm_num)⟩
        rw [exE1_eval]; simp
    · rintro ⟨hb, -⟩
      have hb' : b = 0 ∨ b = 1 := by simpa [exG1] using hb
      rcases hb' with rfl | rfl <;> simp [exRes1]

/-- Witness for claim C1 at a concrete input: on the chain `0 → 1` with
positive weights, pricing selects `[0, 1]`, which is closed under
predecessors. -/
theorem price_selected_closed_witness :
    (∀ e ∈ exG1.edges, e.1 ∈ exG1.nodes ∧ e.2 ∈ exG1.nodes) ∧
    PriceSpec exG1 exP1 exD1 0 Algo.edmonds_karp exRes1 ∧
    (∀ b ∈ exRes1.selected_blocks, ∀ e ∈ exG1.edges, e.2 = b →
      e.1 ∈ exRes1.selected_blocks) :=
  ⟨by decide, exRes1_spec,
    price_selected_closed_under_predecessors exG1 exP1 exD1 0 Algo.edmonds_karp exRes1
      (by decide) exRes1_spec⟩

/-- `allButSink` dominates every terminal-separating partition, so it is
the maximal minimum cut of any graph on which it is a minimum cut at all. -/
theorem allButSink_maximal (E : List (CNode × CNode × ℚ)) :
    ∀ g : CNode → Bool, IsMinCut E g → ∀ n, g n = true → allButSink n = true := by
  intro g hg n hn
  cases n with
  | src => rfl
  | sink => rw [hg.2.1] at hn; cases hn
  | blk b => rfl

/-- Single isolated block. -/
def exG6 : DiGraph := ⟨[0], []⟩

/-- Profit `-1` everywhere. -/
def exP6 : ℕ → ℚ := fun _ => -1

/-- Zero duals. -/
def exD6 : ℕ → ℚ := fun _ => 0

/-- Pricing outcome on the strictly negative instance: empty selection,
zero weight, reduced cost equal to the convexity dual 5. -/
def exRes6 : PricingResult := ⟨5, [], 0⟩

theorem exG6_nonpos : ∀ n ∈ exG6.nodes, weightsOf exP6 exD6 n ≤ 0 := by
  norm_num [exG6, weightsOf, exP6, exD6]

theorem exE6_eval : cutEdges exG6 (weightsOf exP6 exD6) =
    [(CNode.blk 0, CNode.sink, 1)] := by
  norm_num [cutEdges, exG6, weightsOf, exP6, exD6, finiteCap, sumPos]

/-- On the `-1` instance the maximal min-cut source side is everything
except the sink and block 0, which can reach `t` directly through its
unsaturated `0→t` edge. -/
def cutAllBut0 : CNode → Bool
  | CNode.sink => false
  | CNode.blk 0 => false
  | _ => true

theorem exE6_cutCap_cutAllBut0 :
    cutCap (cutEdges exG6 (weightsOf exP6 exD6)) cutAllBut0 = 0 := by
  rw [exE6_eval]
  simp [cutCap, cutAllBut0]

theorem exRes6_spec : PriceSpec exG6 exP6 exD6 5 Algo.min_cut exRes6 := by
  have hmc : IsMinCut (cutEdges exG6 (weightsOf exP6 exD6)) cutAllBut0 := by
    refine ⟨rfl, rfl, ?_⟩
    intro g _ _
    rw [exE6_cutCap_cutAllBut0]
    exact cutCap_nonneg _ (cutEdges_cap_nonneg exG6 _) g
  refine ⟨⟨cutAllBut0, ⟨hmc, ?_⟩, ?_, ?_⟩, by decide, by norm_num [exRes6]⟩
  · intro g hg n hn
    cases n with
    | src => rfl
    | sink => rw [hg.2.1] at hn; cases hn
    | blk b =>
      cases b with
      | zero =>
        exfalso
        have hedge : (CNode.blk 0, CNode.sink, (1 : ℚ)) ∈
            cutEdges exG6 (weightsOf exP6 exD6) := by
          rw [exE6_eval]; simp
        have hcross := cutCap_ge_of_crossing (cutEdges exG6 (weightsOf exP6 exD6))
          (cutEdges_cap_nonneg exG6 _) g (CNode.blk 0, CNode.sink, 1)
          hedge hn hg.2.1
        have hle := minCut_cutCap_zero_of_nonpos exG6 _ exG6_nonpos g hg
        rw [hle] at hcross
        norm_num at hcross
      | succ m => rfl
  · intro b
    constructor
    · intro hb
      simp [exRes6] at hb
    · rintro ⟨hb, hf⟩
      have hb0 : b = 0 := by simpa [exG6] using hb
      subst hb0
      simp [cutAllBut0] at hf
  · rw [exE6_cutCap_cutAllBut0, sumPos_eq_zero_of_nonpos exG6 _ exG6_nonpos]
    norm_num [exRes6]

/-- Witness for the amended C6 theorem: one block of weight `-1` (strictly
negative), `min_cut` mode; pricing returns the empty set, weight 0, reduced
cost 5. -/
theorem price_all_nonpos_weights_amended_witness :
    (∀ n ∈ exG6.nodes, weightsOf exP6 exD6 n ≤ 0) ∧
    PriceSpec exG6 exP6 exD6 5 Algo.min_cut exRes6 ∧
    (exRes6.total_weight = 0 ∧ exRes6.reduced_cost = 5 ∧
      (Algo.min_cut = Algo.edmonds_karp → exRes6.selected_blocks = []) ∧
      ((∀ n ∈ exG6.nodes, weightsOf exP6 exD6 n < 0) →
        exRes6.selected_blocks = [])) :=
  ⟨exG6_nonpos, exRes6_spec,
    price_all_nonpos_weights_amended exG6 exP6 exD6 5 Algo.min_cut exRes6
      exG6_nonpos exRes6_spec⟩

/-- Zero profit everywhere, so the single block has weight exactly 0. -/
def exP6z : ℕ → ℚ := fun _ => 0

/-- What `min_cut`-mode pricing actually returns on the zero-weight block:
the block cannot reach `t` in the residual network (its `s→0` edge has
capacity 0 and there is no `0→t` edge), so it sits on the returned source
side and is selected. -/
def exRes6z : PricingResult := ⟨5, [0], 0⟩

theorem exG6z_nonpos : ∀ n ∈ exG6.nodes, weightsOf exP6z exD6 n ≤ 0 := by
  norm_num [exG6, weightsOf, exP6z, exD6]

theorem exE6z_eval : cutEdges exG6 (weightsOf exP6z exD6) =
    [(CNode.src, CNode.blk 0, 0)] := by
  norm_num [cutEdges, exG6, weightsOf, exP6z, exD6, finiteCap, sumPos]

theorem exE6z_cutCap_allButSink :
    cutCap (cutEdges exG6 (weightsOf exP6z exD6)) allButSink = 0 := by
  rw [exE6z_eval]
  simp [cutCap, allButSink]

theorem exRes6z_spec : PriceSpec exG6 exP6z exD6 5 Algo.min_cut exRes6z := by
  have hmc : IsMinCut (cutEdges exG6 (weightsOf exP6z exD6)) allButSink := by
    refine ⟨rfl, rfl, ?_⟩
    intro g _ _
    rw [exE6z_cutCap_allButSink]
    exact cutCap_nonneg _ (cutEdges_cap_nonneg exG6 _) g
  refine ⟨⟨allButSink, ⟨hmc, allButSink_maximal _⟩, ?_, ?_⟩, by decide,
    by norm_num [exRes6z]⟩
  · intro b
    constructor
    · intro hb
      have hb0 : b = 0 := by simpa [exRes6z] using hb
      subst hb0
      exact ⟨by simp [exG6], rfl⟩
    · rintro ⟨hb, -⟩
      have hb0 : b = 0 := by simpa [exG6] using hb
      subst hb0
      simp [exRes6z]
  · rw [exE6z_cutCap_allButSink, sumPos_eq_zero_of_nonpos exG6 _ exG6z_nonpos]
    norm_num [exRes6z]

/-- Counterexample to claim C6 as stated: a single block of weight exactly
0 satisfies "all weights ≤ 0", yet the default `min_cut` algorithm returns
`selected_blocks = [0]`, not the empty set — `nx.minimum_cut` puts every
node that cannot reach `t` in the residual network on the source side, and
a zero-weight block cannot reach `t`. -/
theorem price_all_nonpos_weights_counterexample :
    (∀ n ∈ exG6.nodes, weightsOf exP6z exD6 n ≤ 0) ∧
    PriceSpec exG6 exP6z exD6 5 Algo.min_cut exRes6z ∧
    exRes6z.selected_blocks ≠ [] :=
  ⟨exG6z_nonpos, exRes6z_spec, by decide⟩

/-! ### Claim C2: the `edmonds_karp` selection bug -/

/-- Chain DAG `0 → 1` where the predecessor is costly. -/
def exG2 : DiGraph := ⟨[0, 1], [(0, 1)]⟩

/-- Profits `{0: -5, 1: 1}`. -/
def exP2 : ℕ → ℚ := fun n => if n = 0 then -5 else if n = 1 then 1 else 0

/-- Zero duals. -/
def exD2 : ℕ → ℚ := fun _ => 0

theorem exE2_eval : cutEdges exG2 (weightsOf exP2 exD2) =
    [(CNode.blk 0, CNode.sink, 5), (CNode.src, CNode.blk 1, 1),
     (CNode.blk 1, CNode.blk 0, 2)] := by
  norm_num [cutEdges, exG2, weightsOf, exP2, exD2, finiteCap, sumPos]

theorem exE2_sumPos : sumPos exG2 (weightsOf exP2 exD2) = 1 := by
  norm_num [sumPos, exG2, weightsOf, exP2, exD2]

/-- The four possible cut values of the little cut graph, by cases on which
side the two block nodes take. -/
theorem exE2_cutCap_cases (g : CNode → Bool) (hs : g CNode.src = true)
    (ht : g CNode.sink = false) :
    cutCap (cutEdges exG2 (weightsOf exP2 exD2)) g = 1 ∨
    cutCap (cutEdges exG2 (weightsOf exP2 exD2)) g = 2 ∨
    cutCap (cutEdges exG2 (weightsOf exP2 exD2)) g = 6 ∨
    cutCap (cutEdges exG2 (weightsOf exP2 exD2)) g = 5 := by
  rw [exE2_eval]
  rcases h0 : g (CNode.blk 0) <;> rcases h1 : g (CNode.blk 1) <;>
    (simp [cutCap, h0, h1, hs, ht]; try norm_num)

/-- The minimum-cut value (= the Edmonds–Karp flow value) of the instance
is exactly 1. -/
theorem exE2_minCutValue (c : ℚ)
    (hc : IsMinCutValue (cutEdges exG2 (weightsOf exP2 exD2)) c) : c = 1 := by
  obtain ⟨f, hf, rfl⟩ := hc
  have hle : cutCap (cutEdges exG2 (weightsOf exP2 exD2)) f ≤ 1 := by
    have h := hf.2.2 srcOnly srcOnly_src srcOnly_sink
    rwa [cutCap_srcOnly, exE2_sumPos] at h
  rcases exE2_cutCap_cases f hf.1 hf.2.1 with h | h | h | h <;> rw [h] <;>
    rw [h] at hle <;> linarith

theorem exE2_reach1 : Reach (cutEdges exG2 (weightsOf exP2 exD2)) (CNode.blk 1) := by
  refine Reach.step (c := 1) Reach.base ?_ (by norm_num)
  rw [exE2_eval]; simp

theorem exE2_reach0 : Reach (cutEdges exG2 (weightsOf exP2 exD2)) (CNode.blk 0) := by
  refine Reach.step (a := CNode.blk 1) (c := 2) exE2_reach1 ?_ (by norm_num)
  rw [exE2_eval]; simp

/-- Claim C2 is violated by the code: on the chain `0 → 1` with weights
`{0: -5, 1: 1}` the `edmonds_karp` branch returns
`total_weight = sum_pos - flow_value = 1 - 1 = 0`, but its reachability
scan tests the residual network's `capacity` attribute (the original
capacity) instead of the residual capacity `capacity - flow`, so it walks
the saturated edge `s→1` and returns `selected_blocks = {0, 1}`, whose
weight sum is `-4 ≠ 0`. -/
theorem price_total_weight_identity_bug (res : PricingResult)
    (hres : PriceSpec exG2 exP2 exD2 0 Algo.edmonds_karp res) :
    res.total_weight = 0 ∧
    (res.selected_blocks.map (weightsOf exP2 exD2)).sum = -4 ∧
    res.total_weight ≠ (res.selected_blocks.map (weightsOf exP2 exD2)).sum := by
  obtain ⟨⟨c, hcv, hmem, htw⟩, hnd, -⟩ := hres
  have hc1 : c = 1 := exE2_minCutValue c hcv
  have htw0 : res.total_weight = 0 := by
    rw [htw, hc1, exE2_sumPos]
    norm_num
  have hperm : res.selected_blocks.Perm [0, 1] := by
    apply (List.perm_ext_iff_of_nodup hnd (by decide)).mpr
    intro b
    rw [hmem b]
    constructor
    · rintro ⟨hb, -⟩
      simpa [exG2] using hb
    · intro hb
      have hb' : b = 0 ∨ b = 1 := by simpa using hb
      rcases hb' with rfl | rfl
      · exact ⟨by simp [exG2], exE2_reach0⟩
      · exact ⟨by simp [exG2], exE2_reach1⟩
  have hsum : (res.selected_blocks.map (weightsOf exP2 exD2)).sum =
      (([0, 1] : List ℕ).map (weightsOf exP2 exD2)).sum :=
    (hperm.map (weightsOf exP2 exD2)).sum_eq
  have hsum4 : (res.selected_blocks.map (weightsOf exP2 exD2)).sum = -4 := by
    rw [hsum]
    norm_num [weightsOf, exP2, exD2]
  refine ⟨htw0, hsum4, ?_⟩
  rw [htw0, hsum4]
  norm_num

/-- The pricing result the buggy `edmonds_karp` branch actually produces on
the `exG2` instance. -/
def exRes2 : PricingResult := ⟨0, [0, 1], 0⟩

theorem exRes2_spec : PriceSpec exG2 exP2 exD2 0 Algo.edmonds_karp exRes2 := by
  refine ⟨⟨1, ⟨srcOnly, ⟨srcOnly_src, srcOnly_sink, ?_⟩, ?_⟩, ?_,
    by rw [exE2_sumPos]; norm_num [exRes2]⟩, by decide, by norm_num [exRes2]⟩
  · intro g hs ht
    rw [cutCap_srcOnly, exE2_sumPos]
    rcases exE2_cutCap_cases g hs ht with h | h | h | h <;> rw [h] <;> linarith
  · rw [cutCap_srcOnly, exE2_sumPos]
  · intro b
    constructor
    · intro hb
      have hb' : b = 0 ∨ b = 1 := by simpa [exRes2] using hb
      rcases hb' with rfl | rfl
      · exact ⟨by simp [exG2], exE2_reach0⟩
      · exact ⟨by simp [exG2], exE2_reach1⟩
    · rintro ⟨hb, -⟩
      have hb' : b = 0 ∨ b = 1 := by simpa [exG2] using hb
      rcases hb' with rfl | rfl <;> simp [exRes2]

/-- Witness for the C2 bug theorem: the concrete buggy result `exRes2`
satisfies the model of the `edmonds_karp` branch, and on it the claimed
identity fails (`0 ≠ -4`). -/
theorem price_total_weight_identity_bug_witness :
    PriceSpec exG2 exP2 exD2 0 Algo.edmonds_karp exRes2 ∧
    (exRes2.total_weight = 0 ∧
      (exRes2.selected_blocks.map (weightsOf exP2 exD2)).sum = -4 ∧
      exRes2.total_weight ≠ (exRes2.selected_blocks.map (weightsOf exP2 exD2)).sum) :=
  ⟨exRes2_spec, price_total_weight_identity_bug exRes2 exRes2_spec⟩

/-! ### The restricted master problem (`models/master_problem.py`) -/

/-- A column/pattern in the master problem (`BlockPattern`).  The Python
dataclass allows `id=None`; the id actually held by a stored pattern is
always an integer, so `None` only occurs at the `add_column` call boundary
and is modelled there by an `Option` argument. -/
structure BlockPatternM where
  id : ℕ
  blocks : List ℕ
  profit : ℚ
deriving DecidableEq

/-- State of `MasterProblem`.  The PuLP model is represented by the data the
claims are about: the objective as the list of `profit·λ` terms appended so
far (column id paired with coefficient), the key list of the `lambda_vars`
dict, the ids appearing in the convexity constraint and, per block, the ids
appearing in that block's packing constraint. -/
structure MasterState where
  n_blocks : ℕ
  objectiveTerms : List (ℕ × ℚ)
  lambdaVars : List ℕ
  columns : List BlockPatternM
  next_column_id : ℕ
  constraint_version : ℕ
  convexityVars : List ℕ
  blockConstraints : List (ℕ × List ℕ)
deriving DecidableEq

/-- `MasterProblem.__init__`: empty model, id counter 0, constraints not yet
built (`_initialize_convexity_constraint` and `_initialize_block_constraints`
are `pass`). -/
def mkMaster (n : ℕ) : MasterState :=
  ⟨n, [], [], [], 0, 0, [], []⟩

/-- `_rebuild_convexity_constraint`: the convexity row is rebuilt over the
current `lambda_vars` values. -/
def rebuildConvexity (st : MasterState) : MasterState :=
  { st with convexityVars := st.lambdaVars }

/-- `_rebuild_block_constraints`: for every block id in `range(n_blocks)`,
collect the λ variables of the stored columns containing that block; a
packing row is added only when at least one variable is involved.  (The
source looks the variables up as `lambda_vars[pattern.id]`; the model keeps
the ids.) -/
def rebuildBlockConstraints (st : MasterState) : MasterState :=
  { st with blockConstraints :=
      (List.range st.n_blocks).filterMap (fun b =>
        let rel := (st.columns.filter (fun p => b ∈ p.blocks)).map (fun p => p.id)
        if rel.isEmpty then none else some (b, rel)) }

/-- `MasterProblem.add_column`.  `pid = none` models a pattern arriving with
`id=None`: the master assigns `next_column_id` and increments the counter;
with `pid = some i` the caller-chosen id is kept and the counter untouched.
A λ variable is created (dict assignment: re-inserting an existing key does
not duplicate it), the `profit·λ` term is appended to the objective, the
pattern is stored, the version bumped and both constraint families
rebuilt. -/
def add_column (st : MasterState) (pid : Option ℕ) (blocks : List ℕ)
    (profit : ℚ) : MasterState :=
  let theId := pid.getD st.next_column_id
  let next1 := match pid with
    | none => st.next_column_id + 1
    | some _ => st.next_column_id
  let st1 := { st with
    next_column_id := next1,
    lambdaVars :=
      if theId ∈ st.lambdaVars then st.lambdaVars else st.lambdaVars ++ [theId],
    objectiveTerms := st.objectiveTerms ++ [(theId, profit)],
    columns := st.columns ++ [⟨theId, blocks, profit⟩],
    constraint_version := st.constraint_version + 1 }
  rebuildBlockConstraints (rebuildConvexity st1)

/-- One step of `BZController.seed_with_singletons`: the controller builds
the pattern with `id=self.master.next_column_id`, calls `add_column`, then
increments `next_column_id` itself. -/
def seedStep (profits : ℕ → ℚ) (st : MasterState) (b : ℕ) : MasterState :=
  let st1 := add_column st (some st.next_column_id) [b] (profits b)
  { st1 with next_column_id := st1.next_column_id + 1 }

/-- The seeding loop of `seed_with_singletons` with its `limit` counter:
after adding a singleton the counter is incremented and the loop breaks
once `count >= limit`. -/
def seedLoop (profits : ℕ → ℚ) : MasterState → List ℕ → ℕ → Option ℕ → MasterState
  | st, [], _, _ => st
  | st, b :: rest, count, limit =>
    let st1 := seedStep profits st b
    match limit with
    | some l => if l ≤ count + 1 then st1 else seedLoop profits st1 rest (count + 1) limit
    | none => seedLoop profits st1 rest (count + 1) none

/-- Stable insertion of `x` into `l`, placing `x` before the first element
it does not rank strictly below (`r x y = true` means `x` may precede `y`). -/
def insertRanked {α : Type} (r : α → α → Bool) : α → List α → List α
  | x, [] => [x]
  | x, y :: ys => if r x y then x :: y :: ys else y :: insertRanked r x ys

/-- Stable sort by the ranking relation `r` (insertion sort): models
Python's stable `sorted`. -/
def sortRanked {α : Type} (r : α → α → Bool) : List α → List α
  | [] => []
  | x :: xs => insertRanked r x (sortRanked r xs)

/-- Descending lexicographic comparison of the `(activity, profit)` sort
keys used by `prune_low_activity_columns` (`reverse=True` on the tuple
key). -/
def keyGe (a b : ℚ × ℚ) : Bool :=
  decide (b.1 < a.1 ∨ (a.1 = b.1 ∧ b.2 ≤ a.2))

/-- `BZController.prune_low_activity_columns`.  The λ activities come from a
`master.solve()` call; PuLP's variable values are abstracted by the oracle
`lambdaVals` (with `lambda_vals.get(p.id, 0.0)` defaulting handled by the
oracle being total).  The code sorts the `(pattern, activity)` pairs
ascending and then again, stably, descending by `(activity, profit)`;
composing the two stable sorts ranks equal keys in original insertion
order, which is what a single stable descending sort of the original list
produces.  The first `keep_top_k` patterns are retained; the λ variables of
the rest are deleted and both constraint families rebuilt.  The objective
is NOT touched. -/
def prune_low_activity_columns (st : MasterState) (lambdaVals : ℕ → ℚ)
    (keep_top_k : ℕ) : MasterState :=
  if st.columns.isEmpty then st
  else
    let pa := st.columns.map (fun p => (p, lambdaVals p.id))
    let ranked := sortRanked
      (fun x y => keyGe (x.2, x.1.profit) (y.2, y.1.profit)) pa
    let toKeep := (ranked.take keep_top_k).map (fun x => x.1.id)
    let newCols := st.columns.filter (fun p => p.id ∈ toKeep)
    let removedIds := (st.columns.filter (fun p => p.id ∉ toKeep)).map (fun p => p.id)
    let st1 := { st with
      columns := newCols,
      lambdaVars := st.lambdaVars.filter (fun i => i ∉ removedIds) }
    rebuildBlockConstraints (rebuildConvexity st1)

/-- `BZController.seed_with_singletons`: iterate block ids `0..n_blocks-1`
in id order, or, with `topk`, the `topk` block ids of highest profit
(stable descending sort by profit). -/
def seed_with_singletons (st : MasterState) (profits : ℕ → ℚ)
    (limit topk : Option ℕ) : MasterState :=
  let ids := match topk with
    | none => List.range st.n_blocks
    | some k =>
        (sortRanked (fun i j => decide (profits j ≤ profits i))
          (List.range st.n_blocks)).take k
  seedLoop profits st ids 0 limit

/-- Solution record returned by `MasterProblem.solve` (`MasterSolution`).
`convexity_dual` is `Option`al because the Python attribute starts as `None`
and is only set from the constraint found in the model. -/
structure MasterSolutionM where
  objective_value : ℚ
  duals : List (ℕ × ℚ)
  convexity_dual : Option ℚ
  variable_values : List (ℕ × ℚ)
deriving DecidableEq

/-- `MasterProblem.solve`: the special case `if not self.lambda_vars` short
circuits with the zero solution; otherwise the LP back-end (PuLP + CBC) is
invoked, abstracted here by the oracle `lp`. -/
def solve (st : MasterState) (lp : MasterState → MasterSolutionM) :
    MasterSolutionM :=
  if st.lambdaVars.isEmpty then ⟨0, [], some 0, []⟩ else lp st

/-- Claim C9: with no λ variables, `solve` returns objective 0, empty dual
map and convexity dual 0, and does so without consulting the LP back-end
(the result is the same for every oracle). -/
theorem solve_no_variables (st : MasterState) (lp lp' : MasterState → MasterSolutionM)
    (h : st.lambdaVars = []) :
    solve st lp = ⟨0, [], some 0, []⟩ ∧ solve st lp = solve st lp' := by
  simp [solve, h]

/-- Witness for claim C9: the freshly initialised master has no variables,
and `solve` on it ignores two different back-end oracles. -/
theorem solve_no_variables_witness :
    (mkMaster 3).lambdaVars = [] ∧
    (solve (mkMaster 3) (fun _ => ⟨7, [], none, []⟩) = ⟨0, [], some 0, []⟩ ∧
      solve (mkMaster 3) (fun _ => ⟨7, [], none, []⟩) =
        solve (mkMaster 3) (fun _ => ⟨8, [], none, []⟩)) :=
  ⟨rfl, solve_no_variables (mkMaster 3) _ _ rfl⟩

/-! ### Claim C4: default seeding is all blocks, not DAG roots -/

/-- The singleton patterns the seeding loop creates from consecutive ids. -/
def seedPats (profits : ℕ → ℚ) : ℕ → List ℕ → List BlockPatternM
  | _, [] => []
  | i, b :: rest => ⟨i, [b], profits b⟩ :: seedPats profits (i + 1) rest

theorem add_column_columns (st : MasterState) (pid : Option ℕ)
    (blocks : List ℕ) (profit : ℚ) :
    (add_column st pid blocks profit).columns =
      st.columns ++ [⟨pid.getD st.next_column_id, blocks, profit⟩] := rfl

theorem seedStep_columns (profits : ℕ → ℚ) (st : MasterState) (b : ℕ) :
    (seedStep profits st b).columns =
      st.columns ++ [⟨st.next_column_id, [b], profits b⟩] := rfl

theorem seedStep_next (profits : ℕ → ℚ) (st : MasterState) (b : ℕ) :
    (seedStep profits st b).next_column_id = st.next_column_id + 1 := rfl

theorem seedLoop_none_spec (profits : ℕ → ℚ) :
    ∀ (ids : List ℕ) (st : MasterState) (count : ℕ),
      (seedLoop profits st ids count none).columns =
        st.columns ++ seedPats profits st.next_column_id ids ∧
      (seedLoop profits st ids count none).next_column_id =
        st.next_column_id + ids.length := by
  intro ids
  induction ids with
  | nil => intro st count; simp [seedLoop, seedPats]
  | cons b rest ih =>
    intro st count
    have h := ih (seedStep profits st b) (count + 1)
    rw [seedLoop, seedPats]
    rcases h with ⟨h1, h2⟩
    constructor
    · rw [h1, seedStep_columns, seedStep_next, List.append_assoc]
      rfl
    · rw [h2, seedStep_next, List.length_cons]
      omega

theorem seedPats_consecutive (profits : ℕ → ℚ) :
    ∀ (k i : ℕ), seedPats profits i (List.range' i k) =
      (List.range' i k).map (fun b => ⟨b, [b], profits b⟩) := by
  intro k
  induction k with
  | zero => intro i; simp [List.range', seedPats]
  | succ k ih =>
    intro i
    rw [List.range', seedPats, List.map_cons, ih (i + 1)]

/-- Amended claim C4: in default mode (`topk=None`, `limit=None`) the seeder
adds one singleton column `{b}` for EVERY block id `b < n_blocks`, in id
order with ids `0, 1, …, n_blocks-1` — regardless of whether `b` is a
source node of the DAG (the DAG is not consulted at all). -/
theorem seed_default_adds_every_block (n : ℕ) (profits : ℕ → ℚ) :
    (seed_with_singletons (mkMaster n) profits none none).columns =
      (List.range n).map (fun b => ⟨b, [b], profits b⟩) ∧
    (seed_with_singletons (mkMaster n) profits none none).next_column_id = n := by
  have h := seedLoop_none_spec profits (List.range n) (mkMaster n) 0
  rcases h with ⟨h1, h2⟩
  have hn : (mkMaster n).n_blocks = n := rfl
  constructor
  · rw [seed_with_singletons, hn, h1]
    show seedPats profits 0 (List.range n) = _
    rw [List.range_eq_range', seedPats_consecutive profits n 0,
      ← List.range_eq_range']
  · rw [seed_with_singletons, hn, h2]
    show 0 + (List.range n).length = n
    simp

/-- Two-block DAG `0 → 1`, so block 1 is not a source node. -/
def exG4 : DiGraph := ⟨[0, 1], [(0, 1)]⟩

/-- Zero profits. -/
def exP4 : ℕ → ℚ := fun _ => 0

/-- Counterexample to claim C4 as stated: roots-mode seeding on a 2-block
instance whose DAG has edge `0 → 1` emits a singleton for non-source block 1
(it emits one singleton per block id, ignoring the DAG). -/
theorem seed_roots_counterexample :
    (0, 1) ∈ exG4.edges ∧
    ((seed_with_singletons (mkMaster 2) exP4 none none).columns.map
      (fun p => p.blocks)) = [[0], [1]] := by
  constructor
  · simp [exG4]
  · decide

/-! ### Claim C3: constraint bookkeeping after pruning -/

/-- Membership in the kept-column ids: a column id survives the prune filter
exactly when it is a stored column id that is not among the removed ids
(removal is decided by the id alone, via `p.id in to_keep`). -/
theorem mem_kept_iff (cols : List BlockPatternM) (toKeep : List ℕ) (i : ℕ) :
    (i ∈ (cols.filter (fun p => p.id ∈ toKeep)).map (fun p => p.id)) ↔
      (i ∈ cols.map (fun p => p.id) ∧
        i ∉ (cols.filter (fun p => p.id ∉ toKeep)).map (fun p => p.id)) := by
  constructor
  · intro h
    rcases List.mem_map.mp h with ⟨p, hpf, rfl⟩
    have hp := List.mem_filter.mp hpf
    have hpk : p.id ∈ toKeep := by simpa using hp.2
    refine ⟨List.mem_map.mpr ⟨p, hp.1, rfl⟩, ?_⟩
    intro hrem
    rcases List.mem_map.mp hrem with ⟨q, hqf, hq⟩
    have hq2 := List.mem_filter.mp hqf
    have hqk : q.id ∉ toKeep := by simpa using hq2.2
    exact hqk (hq ▸ hpk)
  · rintro ⟨hmem, hnot⟩
    rcases List.mem_map.mp hmem with ⟨p, hp, rfl⟩
    by_cases hk : p.id ∈ toKeep
    · exact List.mem_map.mpr ⟨p, List.mem_filter.mpr ⟨hp, by simpa using hk⟩, rfl⟩
    · exact absurd (List.mem_map.mpr ⟨p, List.mem_filter.mpr ⟨hp, by simpa using hk⟩, rfl⟩)
        hnot

/-- Every id referenced by a freshly rebuilt block constraint is the id of a
stored column. -/
theorem rebuildBlockConstraints_refs (st : MasterState) :
    ∀ bc ∈ (rebuildBlockConstraints st).blockConstraints, ∀ i ∈ bc.2,
      i ∈ st.columns.map (fun p => p.id) := by
  intro bc hbc i hi
  simp only [rebuildBlockConstraints] at hbc
  rcases List.mem_filterMap.mp hbc with ⟨b, -, hb⟩
  by_cases hrel : ((st.columns.filter (fun p => b ∈ p.blocks)).map (fun p => p.id)).isEmpty
  · rw [if_pos hrel] at hb
    cases hb
  · rw [if_neg hrel] at hb
    cases hb
    rcases List.mem_map.mp hi with ⟨p, hpf, rfl⟩
    exact List.mem_map.mpr ⟨p, (List.mem_filter.mp hpf).1, rfl⟩

/-- Amended claim C3: after `prune_low_activity_columns`, the rebuilt
convexity constraint references exactly the retained columns' λ variables
and every rebuilt block constraint references only retained columns'
variables; in particular no removed column's variable appears in any
constraint.  (The objective is NOT cleaned; see the counterexample.)
Hypothesis `hlv` is the bookkeeping invariant that the `lambda_vars` keys
are exactly the stored column ids when the prune is invoked. -/
theorem prune_constraints_match_retained (st : MasterState) (vals : ℕ → ℚ)
    (k : ℕ) (hne : st.columns ≠ [])
    (hlv : ∀ i, i ∈ st.lambdaVars ↔ i ∈ st.columns.map (fun p => p.id)) :
    (∀ i, i ∈ (prune_low_activity_columns st vals k).convexityVars ↔
      i ∈ (prune_low_activity_columns st vals k).columns.map (fun p => p.id)) ∧
    (∀ bc ∈ (prune_low_activity_columns st vals k).blockConstraints, ∀ i ∈ bc.2,
      i ∈ (prune_low_activity_columns st vals k).columns.map (fun p => p.id)) ∧
    (∀ p ∈ st.columns,
      p.id ∉ (prune_low_activity_columns st vals k).columns.map (fun q => q.id) →
      p.id ∉ (prune_low_activity_columns st vals k).convexityVars ∧
      ∀ bc ∈ (prune_low_activity_columns st vals k).blockConstraints,
        p.id ∉ bc.2) := by
  have hne' : ¬ st.columns.isEmpty := by simpa using hne
  rw [prune_low_activity_columns, if_neg hne']
  set toKeep := ((sortRanked
      (fun x y => keyGe (x.2, x.1.profit) (y.2, y.1.profit))
      (st.columns.map (fun p => (p, vals p.id)))).take k).map
      (fun x => x.1.id) with htk
  set st1 : MasterState := { st with
    columns := st.columns.filter (fun p => p.id ∈ toKeep),
    lambdaVars := st.lambdaVars.filter
      (fun i => i ∉ (st.columns.filter (fun p => p.id ∉ toKeep)).map
        (fun p => p.id)) } with hst1
  have hcols : (rebuildBlockConstraints (rebuildConvexity st1)).columns =
      st.columns.filter (fun p => p.id ∈ toKeep) := rfl
  have hconv : (rebuildBlockConstraints (rebuildConvexity st1)).convexityVars =
      st1.lambdaVars := rfl
  have hconvIff : ∀ i, i ∈ st1.lambdaVars ↔
      i ∈ (st.columns.filter (fun p => p.id ∈ toKeep)).map (fun p => p.id) := by
    intro i
    rw [mem_kept_iff st.columns toKeep i]
    constructor
    · intro h
      have h2 := List.mem_filter.mp h
      exact ⟨(hlv i).mp h2.1, by simpa using h2.2⟩
    · rintro ⟨h1, h2⟩
      exact List.mem_filter.mpr ⟨(hlv i).mpr h1, by simpa using h2⟩
  refine ⟨?_, ?_, ?_⟩
  · intro i
    rw [hconv, hcols]
    exact hconvIff i
  · intro bc hbc i hi
    rw [hcols]
    have h := rebuildBlockConstraints_refs (rebuildConvexity st1) bc hbc i hi
    exact h
  · intro p hp hnot
    constructor
    · intro hin
      rw [hconv] at hin
      exact hnot ((hcols ▸ (hconvIff p.id).mp hin))
    · intro bc hbc hin
      have h := rebuildBlockConstraints_refs (rebuildConvexity st1) bc hbc p.id hin
      exact hnot (hcols ▸ h)

/-- The master after inserting two columns on one block with `id=None`:
ids 0 and 1, profits 100 and 60. -/
def exSt3 : MasterState :=
  add_column (add_column (mkMaster 1) none [0] 100) none [0] 60

/-- LP activities: column 0 basic at 1, column 1 at 0. -/
def exVals3 : ℕ → ℚ := fun i => if i = 0 then 1 else 0

/-- Counterexample to claim C3 as stated: pruning to the single best column
removes column 1 from `columns`, `lambda_vars` and all constraints, but its
objective term `60·λ_1` is still present — `prune_low_activity_columns`
never rebuilds the PuLP objective. -/
theorem prune_leaves_stale_objective_counterexample :
    ((prune_low_activity_columns exSt3 exVals3 1).columns.map (fun p => p.id)) = [0] ∧
    (1, 60) ∈ (prune_low_activity_columns exSt3 exVals3 1).objectiveTerms := by
  constructor <;> decide

theorem exSt3_hlv : ∀ i, i ∈ exSt3.lambdaVars ↔ i ∈ exSt3.columns.map (fun p => p.id) := by
  have h1 : exSt3.lambdaVars = [0, 1] := by decide
  have h2 : exSt3.columns.map (fun p => p.id) = [0, 1] := by decide
  intro i
  rw [h1, h2]

/-- Witness for the amended C3 theorem on the concrete two-column master. -/
theorem prune_constraints_match_retained_witness :
    (exSt3.columns ≠ [] ∧
      (∀ i, i ∈ exSt3.lambdaVars ↔ i ∈ exSt3.columns.map (fun p => p.id))) ∧
    ((∀ i, i ∈ (prune_low_activity_columns exSt3 exVals3 1).convexityVars ↔
        i ∈ (prune_low_activity_columns exSt3 exVals3 1).columns.map (fun p => p.id)) ∧
      (∀ bc ∈ (prune_low_activity_columns exSt3 exVals3 1).blockConstraints,
        ∀ i ∈ bc.2,
        i ∈ (prune_low_activity_columns exSt3 exVals3 1).columns.map (fun p => p.id)) ∧
      (∀ p ∈ exSt3.columns,
        p.id ∉ (prune_low_activity_columns exSt3 exVals3 1).columns.map (fun q => q.id) →
        p.id ∉ (prune_low_activity_columns exSt3 exVals3 1).convexityVars ∧
        ∀ bc ∈ (prune_low_activity_columns exSt3 exVals3 1).blockConstraints,
          p.id ∉ bc.2)) :=
  ⟨⟨by decide, exSt3_hlv⟩,
    prune_constraints_match_retained exSt3 exVals3 1 (by decide) exSt3_hlv⟩

/-! ### Claim C8: column-id uniqueness and monotonicity -/

/-- A master state together with the ghost trace of every id handed to an
inserted column, in insertion order (never erased by pruning). -/
structure TrackedMaster where
  st : MasterState
  assigned : List ℕ

/-- The master operations the id claims range over: a direct
`master.add_column(pattern)` call (with `pattern.id` either `None` or a
caller-chosen integer — `initialize` is a loop of such calls), a
controller-style seeded insertion (id taken from `next_column_id`, counter
bumped by the controller) and a `prune_low_activity_columns` call. -/
inductive MOp where
  | addCol (pid : Option ℕ) (blocks : List ℕ) (profit : ℚ)
  | seedAdd (b : ℕ) (profit : ℚ)
  | pruneCols (vals : ℕ → ℚ) (k : ℕ)

/-- Apply one master operation, recording the id the inserted column got. -/
def applyOp (tm : TrackedMaster) : MOp → TrackedMaster
  | MOp.addCol pid blocks profit =>
      ⟨add_column tm.st pid blocks profit,
        tm.assigned ++ [pid.getD tm.st.next_column_id]⟩
  | MOp.seedAdd b profit =>
      let st1 := add_column tm.st (some tm.st.next_column_id) [b] profit
      ⟨{ st1 with next_column_id := st1.next_column_id + 1 },
        tm.assigned ++ [tm.st.next_column_id]⟩
  | MOp.pruneCols vals k => ⟨prune_low_activity_columns tm.st vals k, tm.assigned⟩

/-- Run a sequence of master operations. -/
def runOps (tm : TrackedMaster) : List MOp → TrackedMaster
  | [] => tm
  | op :: rest => runOps (applyOp tm op) rest

/-- An operation is disciplined when any inserted column takes its id from
the master's counter: `add_column` with `id=None`, a seeded insertion, or a
prune.  (A caller-chosen explicit id is the undisciplined case.) -/
def disciplined : MOp → Bool
  | MOp.addCol none _ _ => true
  | MOp.addCol (some _) _ _ => false
  | MOp.seedAdd _ _ => true
  | MOp.pruneCols _ _ => true

/-- Fresh controller-owned master with an empty ghost trace. -/
def initTracked (n : ℕ) : TrackedMaster := ⟨mkMaster n, []⟩

/-- The ids an operation removes from the stored columns (nonempty only for
prunes). -/
def removedBy (tm : TrackedMaster) (op : MOp) : List ℕ :=
  (tm.st.columns.map (fun p => p.id)).filter
    (fun i => i ∉ (applyOp tm op).st.columns.map (fun p => p.id))

/-- Id-bookkeeping invariant: the assigned-id trace is strictly increasing,
stays below the counter, and covers every stored column's id. -/
def GoodTracked (tm : TrackedMaster) : Prop :=
  tm.assigned.Pairwise (· < ·) ∧
  (∀ a ∈ tm.assigned, a < tm.st.next_column_id) ∧
  (∀ p ∈ tm.st.columns, p.id ∈ tm.assigned)

theorem prune_next_eq (st : MasterState) (vals : ℕ → ℚ) (k : ℕ) :
    (prune_low_activity_columns st vals k).next_column_id = st.next_column_id := by
  rw [prune_low_activity_columns]
  split <;> rfl

theorem prune_columns_subset (st : MasterState) (vals : ℕ → ℚ) (k : ℕ) :
    ∀ p ∈ (prune_low_activity_columns st vals k).columns, p ∈ st.columns := by
  intro p hp
  rw [prune_low_activity_columns] at hp
  rcases h : st.columns.isEmpty with _ | _
  · rw [if_neg (by rw [h]; exact Bool.false_ne_true)] at hp
    exact (List.mem_filter.mp hp).1
  · rw [if_pos h] at hp
    exact hp

theorem applyOp_next_mono (tm : TrackedMaster) (op : MOp) :
    tm.st.next_column_id ≤ (applyOp tm op).st.next_column_id := by
  cases op with
  | addCol pid blocks profit =>
    cases pid with
    | none => exact Nat.le_succ _
    | some i => exact le_refl _
  | seedAdd b profit => exact Nat.le_succ _
  | pruneCols vals k =>
    show tm.st.next_column_id ≤ (prune_low_activity_columns tm.st vals k).next_column_id
    rw [prune_next_eq]

theorem applyOp_good (tm : TrackedMaster) (op : MOp)
    (hg : GoodTracked tm) (hd : disciplined op = true) :
    GoodTracked (applyOp tm op) := by
  obtain ⟨hpw, hlt, hcol⟩ := hg
  cases op with
  | addCol pid blocks profit =>
    cases pid with
    | some i => simp [disciplined] at hd
    | none =>
      refine ⟨?_, ?_, ?_⟩
      · show List.Pairwise (· < ·) (tm.assigned ++ [tm.st.next_column_id])
        rw [List.pairwise_append]
        exact ⟨hpw, List.pairwise_singleton _ _,
          fun a ha b hb => by
            rw [List.mem_singleton] at hb
            exact hb ▸ hlt a ha⟩
      · intro a ha
        rcases List.mem_append.mp ha with h | h
        · exact Nat.lt_succ_of_lt (hlt a h)
        · rw [List.mem_singleton] at h
          exact h ▸ Nat.lt_succ_self _
      · intro p hp
        show p.id ∈ tm.assigned ++ [tm.st.next_column_id]
        rcases List.mem_append.mp (add_column_columns tm.st none blocks profit ▸ hp)
          with h | h
        · exact List.mem_append_left _ (hcol p h)
        · rw [List.mem_singleton] at h
          subst h
          exact List.mem_append_right _ (by simp [Option.getD])
  | seedAdd b profit =>
    refine ⟨?_, ?_, ?_⟩
    · show List.Pairwise (· < ·) (tm.assigned ++ [tm.st.next_column_id])
      rw [List.pairwise_append]
      exact ⟨hpw, List.pairwise_singleton _ _,
        fun a ha c hc => by
          rw [List.mem_singleton] at hc
          exact hc ▸ hlt a ha⟩
    · intro a ha
      show a < (add_column tm.st (some tm.st.next_column_id) [b] profit).next_column_id + 1
      have hnext : (add_column tm.st (some tm.st.next_column_id) [b] profit).next_column_id
          = tm.st.next_column_id := rfl
      rw [hnext]
      rcases List.mem_append.mp ha with h | h
      · exact Nat.lt_succ_of_lt (hlt a h)
      · rw [List.mem_singleton] at h
        exact h ▸ Nat.lt_succ_self _
    · intro p hp
      show p.id ∈ tm.assigned ++ [tm.st.next_column_id]
      have hp' : p ∈ tm.st.columns ++ [⟨tm.st.next_column_id, [b], profit⟩] := by
        have hc : (applyOp tm (MOp.seedAdd b profit)).st.columns =
            tm.st.columns ++ [⟨(some tm.st.next_column_id).getD tm.st.next_column_id,
              [b], profit⟩] := rfl
        exact hc ▸ hp
      rcases List.mem_append.mp hp' with h | h
      · exact List.mem_append_left _ (hcol p h)
      · rw [List.mem_singleton] at h
        subst h
        exact List.mem_append_right _ (by simp)
  | pruneCols vals k =>
    refine ⟨hpw, ?_, ?_⟩
    · intro a ha
      show a < (prune_low_activity_columns tm.st vals k).next_column_id
      rw [prune_next_eq]
      exact hlt a ha
    · intro p hp
      exact hcol p (prune_columns_subset tm.st vals k p hp)

theorem runOps_append (l1 : List MOp) :
    ∀ (tm : TrackedMaster) (l2 : List MOp),
      runOps tm (l1 ++ l2) = runOps (runOps tm l1) l2 := by
  induction l1 with
  | nil => intro tm l2; rfl
  | cons op rest ih =>
    intro tm l2
    show runOps (applyOp tm op) (rest ++ l2) = _
    rw [ih]
    rfl

theorem runOps_good (ops : List MOp) :
    ∀ tm : TrackedMaster, GoodTracked tm →
      (∀ op ∈ ops, disciplined op = true) → GoodTracked (runOps tm ops) := by
  induction ops with
  | nil => intro tm hg _; exact hg
  | cons op rest ih =>
    intro tm hg hd
    exact ih (applyOp tm op) (applyOp_good tm op hg (hd op (by simp)))
      (fun o ho => hd o (by simp [ho]))

theorem applyOp_assigned_ext (tm : TrackedMaster) (op : MOp)
    (hd : disciplined op = true) :
    ∃ d, (applyOp tm op).assigned = tm.assigned ++ d ∧
      ∀ x ∈ d, tm.st.next_column_id ≤ x := by
  cases op with
  | addCol pid blocks profit =>
    cases pid with
    | none => exact ⟨[tm.st.next_column_id], rfl, by simp⟩
    | some i => simp [disciplined] at hd
  | seedAdd b profit => exact ⟨[tm.st.next_column_id], rfl, by simp⟩
  | pruneCols vals k =>
    refine ⟨[], ?_, by simp⟩
    rw [List.append_nil]
    rfl

theorem runOps_assigned_ext (ops : List MOp) :
    ∀ tm : TrackedMaster, (∀ op ∈ ops, disciplined op = true) →
      ∃ extra, (runOps tm ops).assigned = tm.assigned ++ extra ∧
        ∀ x ∈ extra, tm.st.next_column_id ≤ x := by
  induction ops with
  | nil => intro tm _; exact ⟨[], by simp [runOps], by simp⟩
  | cons op rest ih =>
    intro tm hd
    obtain ⟨d, hdq, hdb⟩ := applyOp_assigned_ext tm op (hd op (by simp))
    obtain ⟨extra2, hq2, hb2⟩ := ih (applyOp tm op) (fun o ho => hd o (by simp [ho]))
    refine ⟨d ++ extra2, ?_, ?_⟩
    · show (runOps (applyOp tm op) rest).assigned = _
      rw [hq2, hdq, List.append_assoc]
    · intro x hx
      rcases List.mem_append.mp hx with h | h
      · exact hdb x h
      · exact le_trans (applyOp_next_mono tm op) (hb2 x h)

/-- Amended claim C8: when every insertion takes its id from the master's
counter (`id=None` inserts, controller-seeded inserts) — which is how
`seed_with_singletons` and the generation loop operate — the trace of
assigned column ids is strictly increasing in insertion order (hence ids
are pairwise unique), every stored column's id appears in the trace, and an
id removed by a prune is never assigned to any later column.  The master
itself does not enforce any of this for caller-chosen explicit ids (see the
counterexample). -/
theorem master_ids_unique_monotone (n : ℕ) (ops : List MOp)
    (hd : ∀ op ∈ ops, disciplined op = true) :
    GoodTracked (runOps (initTracked n) ops) ∧
    (∀ pre op suf, ops = pre ++ op :: suf →
      ∀ i ∈ removedBy (runOps (initTracked n) pre) op,
        i ∉ ((runOps (initTracked n) ops).assigned.drop
          ((runOps (initTracked n) (pre ++ [op])).assigned.length))) := by
  have hinit : GoodTracked (initTracked n) := by
    refine ⟨List.Pairwise.nil, ?_, ?_⟩ <;> intro a ha <;> cases ha
  constructor
  · exact runOps_good ops (initTracked n) hinit hd
  · intro pre op suf heq i hi
    subst heq
    have hdpre : ∀ o ∈ pre, disciplined o = true :=
      fun o ho => hd o (List.mem_append_left _ ho)
    have hdop : disciplined op = true := hd op (by simp)
    have hdsuf : ∀ o ∈ suf, disciplined o = true :=
      fun o ho => hd o (by simp [ho])
    have hgp : GoodTracked (runOps (initTracked n) pre) :=
      runOps_good pre _ hinit hdpre
    have hi1 : i ∈ (runOps (initTracked n) pre).st.columns.map (fun p => p.id) :=
      (List.mem_filter.mp hi).1
    have hi2 : i ∈ (runOps (initTracked n) pre).assigned := by
      rcases List.mem_map.mp hi1 with ⟨p, hp, rfl⟩
      exact hgp.2.2 p hp
    have hilt : i < (runOps (initTracked n) pre).st.next_column_id :=
      hgp.2.1 i hi2
    have hsplit : runOps (initTracked n) (pre ++ op :: suf) =
        runOps (runOps (initTracked n) (pre ++ [op])) suf := by
      rw [show pre ++ op :: suf = (pre ++ [op]) ++ suf by simp, runOps_append]
    have hmid : runOps (initTracked n) (pre ++ [op]) =
        applyOp (runOps (initTracked n) pre) op := by
      rw [runOps_append]
      rfl
    obtain ⟨extra, hext, hbound⟩ :=
      runOps_assigned_ext suf (applyOp (runOps (initTracked n) pre) op) hdsuf
    rw [hsplit, hmid, hext, List.drop_left]
    intro hmem
    have h1 := hbound i hmem
    have h2 := applyOp_next_mono (runOps (initTracked n) pre) op
    omega

/-- Counterexample to claim C8 as stated: `add_column` performs no check on
caller-chosen pattern ids, so inserting two patterns with `id=7` yields the
column-id sequence `[7, 7]` — neither unique nor strictly increasing. -/
theorem master_ids_counterexample :
    ((runOps (initTracked 3) [MOp.addCol (some 7) [0] 0,
        MOp.addCol (some 7) [1] 0]).st.columns.map (fun p => p.id)) = [7, 7] ∧
    ¬ ((runOps (initTracked 3) [MOp.addCol (some 7) [0] 0,
        MOp.addCol (some 7) [1] 0]).st.columns.map (fun p => p.id)).Nodup := by
  constructor <;> decide

/-- A disciplined operation sequence: seed one singleton, add a priced
column, prune down to one column, add another priced column. -/
def exOps8 : List MOp :=
  [MOp.seedAdd 0 5, MOp.addCol none [1] 3,
    MOp.pruneCols (fun _ => 0) 1, MOp.addCol none [2] 4]

theorem exOps8_disciplined : ∀ op ∈ exOps8, disciplined op = true := by
  decide

/-- Witness for the amended C8 theorem on the concrete disciplined
sequence. -/
theorem master_ids_unique_monotone_witness :
    (∀ op ∈ exOps8, disciplined op = true) ∧
    (GoodTracked (runOps (initTracked 3) exOps8) ∧
      (∀ pre op suf, exOps8 = pre ++ op :: suf →
        ∀ i ∈ removedBy (runOps (initTracked 3) pre) op,
          i ∉ ((runOps (initTracked 3) exOps8).assigned.drop
            ((runOps (initTracked 3) (pre ++ [op])).assigned.length)))) :=
  ⟨exOps8_disciplined, master_ids_unique_monotone 3 exOps8 exOps8_disciplined⟩

/-! ### The column-generation controller (`models/bz_controller.py`) -/

/-- `sum(duals.values()) if duals else 0.0` (an empty dict sums to 0 either
way). -/
def sumDualsM (d : List (ℕ × ℚ)) : ℚ := (d.map (fun x => x.2)).sum

/-- `sum(abs(v) for v in duals.values())`. -/
def dualNormM (d : List (ℕ × ℚ)) : ℚ := (d.map (fun x => |x.2|)).sum

/-- One iteration record appended to `self.history` by `BZController.run`. -/
structure EntryM where
  iter : ℕ
  objective : ℚ
  n_columns : ℕ
  reduced_cost : ℚ
  total_weight : ℚ
  selected_blocks : List ℕ
  convexity_dual : ℚ
  dual_norm : ℚ
  ub : ℚ
  rel_gap : ℚ
deriving DecidableEq

/-- The history entry built at lines 83–101 of `bz_controller.py`:
`z = sol.convexity_dual or 0.0` (Python `or` maps both `None` and `0.0` to
`0.0`), `ub = sum(duals) + max(z, W*)`, and
`rel_gap = (ub - obj) / max(1.0, ub) if ub > 0 else 0.0`. -/
def mkEntry (it : ℕ) (sol : MasterSolutionM) (pr : PricingResult)
    (nCols : ℕ) : EntryM :=
  { iter := it
    objective := sol.objective_value
    n_columns := nCols
    reduced_cost := pr.reduced_cost
    total_weight := pr.total_weight
    selected_blocks := pr.selected_blocks
    convexity_dual := sol.convexity_dual.getD 0
    dual_norm := dualNormM sol.duals
    ub := sumDualsM sol.duals + max (sol.convexity_dual.getD 0) pr.total_weight
    rel_gap :=
      if 0 < sumDualsM sol.duals + max (sol.convexity_dual.getD 0) pr.total_weight then
        (sumDualsM sol.duals + max (sol.convexity_dual.getD 0) pr.total_weight
          - sol.objective_value) /
        max 1 (sumDualsM sol.duals + max (sol.convexity_dual.getD 0) pr.total_weight)
      else 0 }

/-- Terminal statuses of `BZController.run`. -/
inductive RStatus where
  | converged : RStatus
  | max_iters : RStatus
  | max_columns_reached : RStatus
deriving DecidableEq

/-- The `self.diagnostics` dict, with `none` denoting an absent key. -/
structure DiagM where
  best_rel_gap : Option ℚ
  best_objective : Option ℚ
  last_ub : Option ℚ
deriving DecidableEq

/-- Diagnostics of a fresh controller (`self.diagnostics = {}`). -/
def emptyDiag : DiagM := ⟨none, none, none⟩

/-- Result dict of `BZController.run` together with the controller's
diagnostics at return time. -/
structure RunResultM where
  status : RStatus
  iterations : ℕ
  objective : ℚ
  history : List EntryM
  diagnostics : DiagM
deriving DecidableEq

/-- `min(gen, default=d)` over a list. -/
def listMinD : List ℚ → ℚ → ℚ
  | [], d => d
  | x :: xs, _ => xs.foldl min x

/-- `max(gen, default=d)` over a list. -/
def listMaxD : List ℚ → ℚ → ℚ
  | [], d => d
  | x :: xs, _ => xs.foldl max x

/-- Diagnostics written in the `converged` branch: best (lowest) recorded
relative gap, best (highest) recorded objective, and the current `ub`. -/
def convergedDiag (hist1 : List EntryM) (obj ubv : ℚ) : DiagM :=
  { best_rel_gap := some (listMinD (hist1.map (fun x => x.rel_gap)) 0)
    best_objective := some (listMaxD (hist1.map (fun x => x.objective)) obj)
    last_ub := some ubv }

/-- Diagnostics written after the loop exhausts `max_iters`: as above with
the final re-solved objective as default, but `last_ub` is only written
when the history is nonempty. -/
def finalDiag (hist : List EntryM) (finalObj : ℚ) (diag : DiagM) : DiagM :=
  { best_rel_gap := some (listMinD (hist.map (fun e => e.rel_gap)) 0)
    best_objective := some (listMaxD (hist.map (fun e => e.objective)) finalObj)
    last_ub := match hist.getLast? with
      | none => diag.last_ub
      | some e => some e.ub }

/-- `self.max_columns is not None and len(self.master.columns) >= self.max_columns`. -/
def maxColumnsReached (maxColumns : Option ℕ) (nCols : ℕ) : Bool :=
  match maxColumns with
  | some m => decide (m ≤ nCols)
  | none => false

/-- The loop of `BZController.run`, structurally recursive on the remaining
iteration budget (`fuel = max_iters - it`).  Each pass solves the master
(`solveO it` abstracts the LP), prices (`priceO it`), appends the history
entry, then tests `reduced_cost >= -eps` (converged, diagnostics
finalised), then the `max_columns` guard (early return, diagnostics NOT
touched), else continues with one more column.  When fuel runs out the
master is re-solved and the `max_iters` result built. -/
def runFrom (solveO : ℕ → MasterSolutionM) (priceO : ℕ → PricingResult)
    (eps : ℚ) (maxIters : ℕ) (maxColumns : Option ℕ) :
    ℕ → ℕ → ℕ → List EntryM → DiagM → RunResultM
  | 0, it, _, hist, diag =>
    ⟨RStatus.max_iters, maxIters, (solveO it).objective_value, hist,
      finalDiag hist (solveO it).objective_value diag⟩
  | fuel + 1, it, nCols, hist, diag =>
    if -eps ≤ (priceO it).reduced_cost then
      ⟨RStatus.converged, it, (solveO it).objective_value,
        hist ++ [mkEntry it (solveO it) (priceO it) nCols],
        convergedDiag (hist ++ [mkEntry it (solveO it) (priceO it) nCols])
          (solveO it).objective_value (mkEntry it (solveO it) (priceO it) nCols).ub⟩
    else if maxColumnsReached maxColumns nCols then
      ⟨RStatus.max_columns_reached, it, (solveO it).objective_value,
        hist ++ [mkEntry it (solveO it) (priceO it) nCols], diag⟩
    else
      runFrom solveO priceO eps maxIters maxColumns fuel (it + 1) (nCols + 1)
        (hist ++ [mkEntry it (solveO it) (priceO it) nCols]) diag

/-- `BZController.run`: clears the history and runs the loop from iteration
0 with the current column count `nCols0` and current diagnostics `diag0`. -/
def runM (solveO : ℕ → MasterSolutionM) (priceO : ℕ → PricingResult)
    (eps : ℚ) (maxIters : ℕ) (maxColumns : Option ℕ) (nCols0 : ℕ)
    (diag0 : DiagM) : RunResultM :=
  runFrom solveO priceO eps maxIters maxColumns maxIters 0 nCols0 [] diag0

theorem runFrom_hist_iter (solveO : ℕ → MasterSolutionM)
    (priceO : ℕ → PricingResult) (eps : ℚ) (maxIters : ℕ)
    (maxColumns : Option ℕ) :
    ∀ (fuel it nCols : ℕ) (hist : List EntryM) (diag : DiagM),
      hist.length = it → it + fuel = maxIters →
      ((runFrom solveO priceO eps maxIters maxColumns fuel it nCols hist
          diag).status = RStatus.converged →
        (runFrom solveO priceO eps maxIters maxColumns fuel it nCols hist
          diag).history.length =
        (runFrom solveO priceO eps maxIters maxColumns fuel it nCols hist
          diag).iterations + 1) ∧
      ((runFrom solveO priceO eps maxIters maxColumns fuel it nCols hist
          diag).status = RStatus.max_iters →
        (runFrom solveO priceO eps maxIters maxColumns fuel it nCols hist
          diag).iterations =
        (runFrom solveO priceO eps maxIters maxColumns fuel it nCols hist
          diag).history.length) := by
  intro fuel
  induction fuel with
  | zero =>
    intro it nCols hist diag hlen hsum
    rw [runFrom]
    exact ⟨fun h => RStatus.noConfusion h, fun _ => by simp [hlen]; omega⟩
  | succ fuel ih =>
    intro it nCols hist diag hlen hsum
    rw [runFrom]
    by_cases hc : -eps ≤ (priceO it).reduced_cost
    · rw [if_pos hc]
      refine ⟨fun _ => ?_, fun h => RStatus.noConfusion h⟩
      simp [hlen]
    · rw [if_neg hc]
      by_cases hm : maxColumnsReached maxColumns nCols
      · rw [if_pos hm]
        exact ⟨fun h => RStatus.noConfusion h, fun h => RStatus.noConfusion h⟩
      · rw [if_neg hm]
        exact ih (it + 1) (nCols + 1)
          (hist ++ [mkEntry it (solveO it) (priceO it) nCols]) diag
          (by simp [hlen]) (by omega)

/-- Claim C10: a `converged` run records one more history entry than the
reported `iterations` (the stopping iteration is recorded but not counted),
while a `max_iters` run reports `iterations` equal to the history length. -/
theorem run_history_length_vs_iterations (solveO : ℕ → MasterSolutionM)
    (priceO : ℕ → PricingResult) (eps : ℚ) (maxIters : ℕ)
    (maxColumns : Option ℕ) (nCols0 : ℕ) (diag0 : DiagM) :
    ((runM solveO priceO eps maxIters maxColumns nCols0 diag0).status =
        RStatus.converged →
      (runM solveO priceO eps maxIters maxColumns nCols0 diag0).history.length =
      (runM solveO priceO eps maxIters maxColumns nCols0 diag0).iterations + 1) ∧
    ((runM solveO priceO eps maxIters maxColumns nCols0 diag0).status =
        RStatus.max_iters →
      (runM solveO priceO eps maxIters maxColumns nCols0 diag0).iterations =
      (runM solveO priceO eps maxIters maxColumns nCols0 diag0).history.length) :=
  runFrom_hist_iter solveO priceO eps maxIters maxColumns maxIters 0 nCols0 []
    diag0 rfl (by omega)

theorem runFrom_diag_spec (solveO : ℕ → MasterSolutionM)
    (priceO : ℕ → PricingResult) (eps : ℚ) (maxIters : ℕ)
    (maxColumns : Option ℕ) :
    ∀ (fuel it nCols : ℕ) (hist : List EntryM) (diag : DiagM),
      ((runFrom solveO priceO eps maxIters maxColumns fuel it nCols hist
          diag).status = RStatus.converged →
        (runFrom solveO priceO eps maxIters maxColumns fuel it nCols hist
          diag).diagnostics.best_rel_gap.isSome = true ∧
        (runFrom solveO priceO eps maxIters maxColumns fuel it nCols hist
          diag).diagnostics.best_objective.isSome = true ∧
        (runFrom solveO priceO eps maxIters maxColumns fuel it nCols hist
          diag).diagnostics.last_ub.isSome = true) ∧
      ((runFrom solveO priceO eps maxIters maxColumns fuel it nCols hist
          diag).status = RStatus.max_iters →
        (runFrom solveO priceO eps maxIters maxColumns fuel it nCols hist
          diag).diagnostics.best_rel_gap.isSome = true ∧
        (runFrom solveO priceO eps maxIters maxColumns fuel it nCols hist
          diag).diagnostics.best_objective.isSome = true ∧
        ((runFrom solveO priceO eps maxIters maxColumns fuel it nCols hist
          diag).history ≠ [] →
          (runFrom solveO priceO eps maxIters maxColumns fuel it nCols hist
            diag).diagnostics.last_ub.isSome = true)) ∧
      ((runFrom solveO priceO eps maxIters maxColumns fuel it nCols hist
          diag).status = RStatus.max_columns_reached →
        (runFrom solveO priceO eps maxIters maxColumns fuel it nCols hist
          diag).diagnostics = diag) := by
  intro fuel
  induction fuel with
  | zero =>
    intro it nCols hist diag
    rw [runFrom]
    refine ⟨fun h => RStatus.noConfusion h, fun _ => ⟨rfl, rfl, ?_⟩,
      fun h => RStatus.noConfusion h⟩
    intro hne
    show (finalDiag hist (solveO it).objective_value diag).last_ub.isSome = true
    rw [finalDiag]
    rcases hlast : hist.getLast? with _ | e
    · exact absurd (List.getLast?_eq_none_iff.mp hlast) hne
    · simp [hlast]
  | succ fuel ih =>
    intro it nCols hist diag
    rw [runFrom]
    by_cases hc : -eps ≤ (priceO it).reduced_cost
    · rw [if_pos hc]
      exact ⟨fun _ => ⟨rfl, rfl, rfl⟩, fun h => RStatus.noConfusion h,
        fun h => RStatus.noConfusion h⟩
    · rw [if_neg hc]
      by_cases hm : maxColumnsReached maxColumns nCols
      · rw [if_pos hm]
        exact ⟨fun h => RStatus.noConfusion h, fun h => RStatus.noConfusion h,
          fun _ => rfl⟩
      · rw [if_neg hm]
        exact ih (it + 1) (nCols + 1)
          (hist ++ [mkEntry it (solveO it) (priceO it) nCols]) diag

/-- Amended claim C5: the finalised diagnostics are written on `converged`
(all three of `best_rel_gap`, `best_objective`, `last_ub`) and on
`max_iters` (`best_rel_gap` and `best_objective` always, `last_ub` only
when at least one iteration was recorded); on `max_columns_reached` the
`run` method returns early and the diagnostics are left exactly as they
were before the run. -/
theorem run_diagnostics_finalisation (solveO : ℕ → MasterSolutionM)
    (priceO : ℕ → PricingResult) (eps : ℚ) (maxIters : ℕ)
    (maxColumns : Option ℕ) (nCols0 : ℕ) (diag0 : DiagM) :
    ((runM solveO priceO eps maxIters maxColumns nCols0 diag0).status =
        RStatus.converged →
      (runM solveO priceO eps maxIters maxColumns nCols0 diag0).diagnostics.best_rel_gap.isSome = true ∧
      (runM solveO priceO eps maxIters maxColumns nCols0 diag0).diagnostics.best_objective.isSome = true ∧
      (runM solveO priceO eps maxIters maxColumns nCols0 diag0).diagnostics.last_ub.isSome = true) ∧
    ((runM solveO priceO eps maxIters maxColumns nCols0 diag0).status =
        RStatus.max_iters →
      (runM solveO priceO eps maxIters maxColumns nCols0 diag0).diagnostics.best_rel_gap.isSome = true ∧
      (runM solveO priceO eps maxIters maxColumns nCols0 diag0).diagnostics.best_objective.isSome = true ∧
      ((runM solveO priceO eps maxIters maxColumns nCols0 diag0).history ≠ [] →
        (runM solveO priceO eps maxIters maxColumns nCols0 diag0).diagnostics.last_ub.isSome = true)) ∧
    ((runM solveO priceO eps maxIters maxColumns nCols0 diag0).status =
        RStatus.max_columns_reached →
      (runM solveO priceO eps maxIters maxColumns nCols0 diag0).diagnostics = diag0) :=
  runFrom_diag_spec solveO priceO eps maxIters maxColumns maxIters 0 nCols0 [] diag0

/-- Constant LP oracle used by the converged-run witnesses. -/
def cSolveC : ℕ → MasterSolutionM := fun _ => ⟨10, [(0, 2)], some 1, []⟩

/-- Constant pricing oracle with reduced cost 0 (no improving column). -/
def cPriceC : ℕ → PricingResult := fun _ => ⟨0, [], 1⟩

/-- Witness for the amended C5 theorem: a run that converges on its first
iteration has all three diagnostics keys set. -/
theorem run_diagnostics_finalisation_witness :
    (runM cSolveC cPriceC 1 5 none 2 emptyDiag).status = RStatus.converged ∧
    ((runM cSolveC cPriceC 1 5 none 2 emptyDiag).diagnostics.best_rel_gap.isSome = true ∧
      (runM cSolveC cPriceC 1 5 none 2 emptyDiag).diagnostics.best_objective.isSome = true ∧
      (runM cSolveC cPriceC 1 5 none 2 emptyDiag).diagnostics.last_ub.isSome = true) :=
  ⟨by decide, (run_diagnostics_finalisation cSolveC cPriceC 1 5 none 2 emptyDiag).1
    (by decide)⟩

/-- Unimproving pricing oracle whose reduced cost stays `-2`. -/
def cPriceP : ℕ → PricingResult := fun _ => ⟨-2, [], 0⟩

/-- Zero LP oracle. -/
def cSolveZ : ℕ → MasterSolutionM := fun _ => ⟨0, [], none, []⟩

/-- Counterexample to claim C5 as stated: a run that terminates with
`max_columns_reached` (here `max_columns = 0`) returns without writing any
diagnostics — all three keys are still absent. -/
theorem run_diag_counterexample :
    (runM cSolveZ cPriceP 1 5 (some 0) 0 emptyDiag).status =
      RStatus.max_columns_reached ∧
    (runM cSolveZ cPriceP 1 5 (some 0) 0 emptyDiag).diagnostics.best_rel_gap = none ∧
    (runM cSolveZ cPriceP 1 5 (some 0) 0 emptyDiag).diagnostics.best_objective = none ∧
    (runM cSolveZ cPriceP 1 5 (some 0) 0 emptyDiag).diagnostics.last_ub = none := by
  refine ⟨rfl, rfl, rfl, rfl⟩

/-- Witness for claim C10: a run that converges at iteration 0 has one
history entry and reports `iterations = 0`. -/
theorem run_history_length_vs_iterations_witness :
    (runM cSolveC cPriceC 1 5 none 2 emptyDiag).status = RStatus.converged ∧
    (runM cSolveC cPriceC 1 5 none 2 emptyDiag).history.length =
      (runM cSolveC cPriceC 1 5 none 2 emptyDiag).iterations + 1 :=
  ⟨by decide, (run_history_length_vs_iterations cSolveC cPriceC 1 5 none 2
    emptyDiag).1 (by decide)⟩

theorem runFrom_hist_mem (solveO : ℕ → MasterSolutionM)
    (priceO : ℕ → PricingResult) (eps : ℚ) (maxIters : ℕ)
    (maxColumns : Option ℕ) :
    ∀ (fuel it nCols : ℕ) (hist : List EntryM) (diag : DiagM) (e : EntryM),
      (∀ x ∈ hist, ∃ i n, x = mkEntry i (solveO i) (priceO i) n) →
      e ∈ (runFrom solveO priceO eps maxIters maxColumns fuel it nCols hist
        diag).history →
      ∃ i n, e = mkEntry i (solveO i) (priceO i) n := by
  intro fuel
  induction fuel with
  | zero =>
    intro it nCols hist diag e hh he
    rw [runFrom] at he
    exact hh e he
  | succ fuel ih =>
    intro it nCols hist diag e hh he
    have hh1 : ∀ x ∈ hist ++ [mkEntry it (solveO it) (priceO it) nCols],
        ∃ i n, x = mkEntry i (solveO i) (priceO i) n := by
      intro x hx
      rcases List.mem_append.mp hx with h | h
      · exact hh x h
      · rw [List.mem_singleton] at h
        exact ⟨it, nCols, h⟩
    rw [runFrom] at he
    by_cases hc : -eps ≤ (priceO it).reduced_cost
    · rw [if_pos hc] at he
      exact hh1 e he
    · rw [if_neg hc] at he
      by_cases hm : maxColumnsReached maxColumns nCols
      · rw [if_pos hm] at he
        exact hh1 e he
      · rw [if_neg hm] at he
        exact ih (it + 1) (nCols + 1)
          (hist ++ [mkEntry it (solveO it) (priceO it) nCols]) diag e hh1 he

/-- Amended claim C7: every recorded history entry has
`ub = Σ π + max(z, W*)` built from that iteration's solve and pricing
results, and `rel_gap = (ub - objective) / max(1, ub)` WHEN `ub > 0`; when
`ub ≤ 0` the recorded `rel_gap` is `0` instead (the code guards the formula
with `if ub > 0 else 0.0`). -/
theorem run_history_ub_rel_gap (solveO : ℕ → MasterSolutionM)
    (priceO : ℕ → PricingResult) (eps : ℚ) (maxIters : ℕ)
    (maxColumns : Option ℕ) (nCols0 : ℕ) (diag0 : DiagM) :
    ∀ e ∈ (runM solveO priceO eps maxIters maxColumns nCols0 diag0).history,
      ∃ i, e.objective = (solveO i).objective_value ∧
        e.convexity_dual = (solveO i).convexity_dual.getD 0 ∧
        e.total_weight = (priceO i).total_weight ∧
        e.ub = sumDualsM (solveO i).duals +
          max ((solveO i).convexity_dual.getD 0) ((priceO i).total_weight) ∧
        (0 < e.ub → e.rel_gap = (e.ub - e.objective) / max 1 e.ub) ∧
        (e.ub ≤ 0 → e.rel_gap = 0) := by
  intro e he
  obtain ⟨i, n, rfl⟩ := runFrom_hist_mem solveO priceO eps maxIters maxColumns
    maxIters 0 nCols0 [] diag0 e (fun x hx => absurd hx (List.not_mem_nil x)) he
  refine ⟨i, rfl, rfl, rfl, rfl, ?_, ?_⟩
  · intro h
    have h' : 0 < sumDualsM (solveO i).duals +
        max ((solveO i).convexity_dual.getD 0) ((priceO i).total_weight) := h
    show (if 0 < sumDualsM (solveO i).duals +
        max ((solveO i).convexity_dual.getD 0) ((priceO i).total_weight)
      then _ else _) = _
    rw [if_pos h']
    rfl
  · intro h
    have h' : sumDualsM (solveO i).duals +
        max ((solveO i).convexity_dual.getD 0) ((priceO i).total_weight) ≤ 0 := h
    show (if 0 < sumDualsM (solveO i).duals +
        max ((solveO i).convexity_dual.getD 0) ((priceO i).total_weight)
      then _ else _) = _
    rw [if_neg (not_lt.mpr h')]

/-- LP oracle of a master holding one column of profit `-5` covering block
0: objective `-5`, packing dual 0, convexity dual `-5` (the optimal vertex
duals of that LP). -/
def cSolveN : ℕ → MasterSolutionM := fun _ => ⟨-5, [(0, 0)], some (-5), []⟩

/-- The matching pricing result: the single weight is `-5 - 0 ≤ 0`, so the
closure is empty, `W* = 0` and `reduced_cost = z - W* = -5`. -/
def cPriceN : ℕ → PricingResult := fun _ => ⟨-5, [], 0⟩

/-- Counterexample to claim C7 as stated: with objective `-5`, zero duals,
convexity dual `-5` and `W* = 0` the entry has `ub = 0`, and the code
records `rel_gap = 0`, whereas the claimed formula
`(ub - objective) / max(1, ub)` evaluates to `5`. -/
theorem run_rel_gap_counterexample :
    (runM cSolveN cPriceN 1 1 none 1 emptyDiag).history =
      [mkEntry 0 (cSolveN 0) (cPriceN 0) 1] ∧
    (mkEntry 0 (cSolveN 0) (cPriceN 0) 1).ub = 0 ∧
    (mkEntry 0 (cSolveN 0) (cPriceN 0) 1).rel_gap = 0 ∧
    ((mkEntry 0 (cSolveN 0) (cPriceN 0) 1).ub -
      (mkEntry 0 (cSolveN 0) (cPriceN 0) 1).objective) /
      max 1 (mkEntry 0 (cSolveN 0) (cPriceN 0) 1).ub = 5 := by
  refine ⟨rfl, ?_, ?_, ?_⟩
  · show sumDualsM (cSolveN 0).duals +
      max ((cSolveN 0).convexity_dual.getD 0) ((cPriceN 0).total_weight) = 0
    norm_num [sumDualsM, cSolveN, cPriceN]
  · show (if 0 < sumDualsM (cSolveN 0).duals +
        max ((cSolveN 0).convexity_dual.getD 0) ((cPriceN 0).total_weight)
      then _ else _) = _
    rw [if_neg]
    norm_num [sumDualsM, cSolveN, cPriceN]
  · show (sumDualsM (cSolveN 0).duals +
        max ((cSolveN 0).convexity_dual.getD 0) ((cPriceN 0).total_weight)
        - (cSolveN 0).objective_value) / max 1 (sumDualsM (cSolveN 0).duals +
        max ((cSolveN 0).convexity_dual.getD 0) ((cPriceN 0).total_weight)) = 5
    norm_num [sumDualsM, cSolveN, cPriceN]

/-- Witness for the amended C7 theorem: the converged run's single entry
satisfies the ub and rel-gap formulas. -/
theorem run_history_ub_rel_gap_witness :
    mkEntry 0 (cSolveC 0) (cPriceC 0) 2 ∈
      (runM cSolveC cPriceC 1 5 none 2 emptyDiag).history ∧
    (∃ i, (mkEntry 0 (cSolveC 0) (cPriceC 0) 2).objective =
        (cSolveC i).objective_value ∧
      (mkEntry 0 (cSolveC 0) (cPriceC 0) 2).convexity_dual =
        (cSolveC i).convexity_dual.getD 0 ∧
      (mkEntry 0 (cSolveC 0) (cPriceC 0) 2).total_weight =
        (cPriceC i).total_weight ∧
      (mkEntry 0 (cSolveC 0) (cPriceC 0) 2).ub = sumDualsM (cSolveC i).duals +
        max ((cSolveC i).convexity_dual.getD 0) ((cPriceC i).total_weight) ∧
      (0 < (mkEntry 0 (cSolveC 0) (cPriceC 0) 2).ub →
        (mkEntry 0 (cSolveC 0) (cPriceC 0) 2).rel_gap =
        ((mkEntry 0 (cSolveC 0) (cPriceC 0) 2).ub -
          (mkEntry 0 (cSolveC 0) (cPriceC 0) 2).objective) /
          max 1 (mkEntry 0 (cSolveC 0) (cPriceC 0) 2).ub) ∧
      ((mkEntry 0 (cSolveC 0) (cPriceC 0) 2).ub ≤ 0 →
        (mkEntry 0 (cSolveC 0) (cPriceC 0) 2).rel_gap = 0)) :=
  ⟨by rw [show (runM cSolveC cPriceC 1 5 none 2 emptyDiag).history =
      [mkEntry 0 (cSolveC 0) (cPriceC 0) 2] from rfl]; exact List.mem_singleton.mpr rfl,
    run_history_ub_rel_gap cSolveC cPriceC 1 5 none 2 emptyDiag
      (mkEntry 0 (cSolveC 0) (cPriceC 0) 2)
      (by rw [show (runM cSolveC cPriceC 1 5 none 2 emptyDiag).history =
          [mkEntry 0 (cSolveC 0) (cPriceC 0) 2] from rfl]
          exact List.mem_singleton.mpr rfl)⟩
